import Mathlib

/-!
Verification of the tile coordinate system and batch-fetch orchestrator of the
`ingress-intel-rs` client library.

The embedding follows the Rust sources:
* `src/tile_key.rs` — the `TileKey` value type, the `tilesPerEdge` lookup
  table, rectangle (`range`) and square-neighborhood (`square`) enumeration,
  and the textual encode/decode (`Display` / `FromStr`).
* `src/lib.rs` and `src/get_entities_in_range.rs` — the per-tile state machine
  (`TileState`), batch selection (`get_tiles`'s select phase), and batch
  resolution on transport success/failure.

The floating-point Mercator projections `lat2tile` / `lng2tile` use `f64`
transcendentals (`tan`, `cos`, `ln`); they are modelled as arbitrary function
parameters `lat2tile lng2tile : ℚ → ℚ → ℤ` (point coordinate, tiles-per-edge
value ↦ tile index), since the enumeration claims depend only on the
projections being deterministic functions, not on their numeric values.
Machine integers `u8` / `i64` are modelled as `Nat` / `Int` with explicit
range hypotheses where a claim depends on them.
-/

namespace IngressIntel

/-! ## src/tile_key.rs : constants and the tilesPerEdge table -/

/-- Rust: `const DEFAULT_ZOOM: u8 = 15;` -/
def DEFAULT_ZOOM : Nat := 15

/-- Rust: `static TILES_PER_EDGE: [u16; 16] = [1, 1, 1, 40, 40, 80, 80, 320, 1000, 2000, 2000, 4000, 8000, 16000, 16000, 32000];` -/
def TILES_PER_EDGE : List Nat :=
  [1, 1, 1, 40, 40, 80, 80, 320, 1000, 2000, 2000, 4000, 8000, 16000, 16000, 32000]

/-- Rust `zoom.clamp(3, 15)`: `clamp(lo, hi) = min(max(self, lo), hi)`. -/
def clampZoom (zoom : Nat) : Nat := min (max zoom 3) 15

/-- Rust `get_tiles_per_edge`: `TILES_PER_EDGE[zoom.clamp(3, 15) as usize]`.
The array index is modelled as a checked lookup (`Option`); `none` would
correspond to a Rust index-out-of-bounds panic. -/
def get_tiles_per_edge? (zoom : Nat) : Option Nat :=
  TILES_PER_EDGE.get? (clampZoom zoom)

/-- Total version of the lookup used by `TileKey.new` / `TileKey.range`;
the in-bounds theorem shows the default branch is never taken. -/
def get_tiles_per_edge (zoom : Nat) : Nat :=
  (get_tiles_per_edge? zoom).getD 0

/-! ## src/tile_key.rs : the TileKey value type -/

/-- Rust `struct TileKey { zoom: u8, x: i64, y: i64, min_level: u8, max_level: u8, health: u8 }`. -/
structure TileKey where
  zoom : Nat
  x : Int
  y : Int
  min_level : Nat
  max_level : Nat
  health : Nat
deriving DecidableEq, Repr

/-- Rust inclusive range iterator `(a..=b)` over `i64`, as a list. -/
def intRangeIncl (a b : Int) : List Int :=
  (List.range (b + 1 - a).toNat).map fun i : Nat => a + (i : Int)

/-- Rust exclusive range iterator `(a..b)` over `i64`, as a list. -/
def intRangeExcl (a b : Int) : List Int :=
  (List.range (b - a).toNat).map fun i : Nat => a + (i : Int)

/-- Rust `TileKey::new(latitude, longitude, zoom, min_level, max_level, health)`.
`lat2tile` / `lng2tile` abstract the f64 Mercator projection functions of
`src/tile_key.rs` (arguments: coordinate, tiles-per-edge). -/
def TileKey.new (lat2tile lng2tile : ℚ → ℚ → Int)
    (latitude longitude : ℚ)
    (zoom min_level max_level health : Option Nat) : TileKey :=
  let z := zoom.getD DEFAULT_ZOOM
  let tpe : ℚ := (get_tiles_per_edge z : ℚ)
  { zoom := z
    x := lng2tile longitude tpe
    y := lat2tile latitude tpe
    min_level := min_level.getD 0
    max_level := max_level.getD 8
    health := health.getD 100 }

/-- Rust `TileKey::range((from_lat, from_lng), (to_lat, to_lng), ...)`:
projects both corners, normalizes with `min`/`max`, and enumerates
`(from_x..=to_x).flat_map(|x| (from_y..=to_y).map(|y| TileKey { .. }))`. -/
def TileKey.range (lat2tile lng2tile : ℚ → ℚ → Int)
    (fromP toP : ℚ × ℚ)
    (zoom min_level max_level health : Option Nat) : List TileKey :=
  let z := zoom.getD DEFAULT_ZOOM
  let tpe : ℚ := (get_tiles_per_edge z : ℚ)
  let x1 := lng2tile fromP.2 tpe
  let y1 := lat2tile fromP.1 tpe
  let x2 := lng2tile toP.2 tpe
  let y2 := lat2tile toP.1 tpe
  (intRangeIncl (min x1 x2) (max x1 x2)).flatMap fun x =>
    (intRangeIncl (min y1 y2) (max y1 y2)).map fun y =>
      { zoom := z
        x := x
        y := y
        min_level := min_level.getD 0
        max_level := max_level.getD 8
        health := health.getD 100 }

/-- Rust `TileKey::square(self, side)`:
`(self.x..(self.x + side)).zip(self.y..(self.y + side)).map(|(x, y)| Self { x, y, ..self })`.
Note `zip`, not a nested product: the result walks the diagonal. -/
def TileKey.square (self : TileKey) (side : Nat) : List TileKey :=
  ((intRangeExcl self.x (self.x + (side : Int))).zip
      (intRangeExcl self.y (self.y + (side : Int)))).map
    fun p => { self with x := p.1, y := p.2 }

/-! ## src/tile_key.rs : textual encoding (`Display`) and decoding (`FromStr`)

Strings are modelled as `List Char`. -/

/-- Decimal digit `d` (with `d < 10`) as its ASCII character. -/
def digitChar (d : Nat) : Char := Char.ofNat (48 + d)

/-- Canonical decimal printing of a natural number, fuel-based
(most significant digit first); `fuel` bounds the recursion depth. -/
def toDigitsAux : Nat → Nat → List Char
  | 0, _ => []
  | fuel + 1, n =>
    if n < 10 then [digitChar n]
    else toDigitsAux fuel (n / 10) ++ [digitChar (n % 10)]

/-- Rust `Display` for an unsigned integer: canonical decimal digits. -/
def natChars (n : Nat) : List Char := toDigitsAux (n + 1) n

/-- Rust `Display` for an `i64`: a leading `-` for negative values. -/
def intChars (x : Int) : List Char :=
  if x < 0 then '-' :: natChars x.natAbs else natChars x.toNat

/-- Rust `write!(f, "{}_{}_{}_{}_{}_{}", zoom, x, y, min_level, max_level, health)`. -/
def tileKeyToString (k : TileKey) : List Char :=
  natChars k.zoom ++ '_' ::
    (intChars k.x ++ '_' ::
      (intChars k.y ++ '_' ::
        (natChars k.min_level ++ '_' ::
          (natChars k.max_level ++ '_' :: natChars k.health))))

/-- Numeric value of an ASCII decimal digit character, `none` otherwise. -/
def digitVal (c : Char) : Option Nat :=
  if 48 ≤ c.toNat ∧ c.toNat ≤ 57 then some (c.toNat - 48) else none

/-- The accumulator loop of Rust integer `from_str`: left-to-right
`acc * 10 + digit`, failing on a non-digit character. -/
def parseDigitsAux (acc : Nat) : List Char → Option Nat
  | [] => some acc
  | c :: cs =>
    match digitVal c with
    | some d => parseDigitsAux (acc * 10 + d) cs
    | none => none

/-- Digit-sequence parse: Rust `from_str` fails on an empty digit string. -/
def parseNat? (cs : List Char) : Option Nat :=
  if cs = [] then none else parseDigitsAux 0 cs

/-- Rust `u8::from_str`: optional `+` sign, digits, overflow check at 255.
Rust detects overflow during accumulation; an unbounded accumulate followed
by a final range check accepts exactly the same strings. -/
def parseU8 (cs : List Char) : Option Nat :=
  match cs with
  | [] => none
  | c :: rest =>
    let ds := if c = '+' then rest else c :: rest
    (parseNat? ds).bind fun v => if v ≤ 255 then some v else none

/-- Rust `i64::from_str`: optional sign, digits, range check at ±2^63. -/
def parseI64 (cs : List Char) : Option Int :=
  match cs with
  | [] => none
  | c :: rest =>
    if c = '-' then
      (parseNat? rest).bind fun v =>
        if (v : Int) ≤ 2 ^ 63 then some (-(v : Int)) else none
    else
      let ds := if c = '+' then rest else c :: rest
      (parseNat? ds).bind fun v =>
        if (v : Int) ≤ 2 ^ 63 - 1 then some ((v : Int)) else none

/-- Rust `s.split('_')`: splits on every underscore; `""` yields `[""]`,
so the result is always non-empty. -/
def splitUnderscore : List Char → List (List Char)
  | [] => [[]]
  | c :: rest =>
    if c = '_' then [] :: splitUnderscore rest
    else
      match splitUnderscore rest with
      | [] => [[c]]
      | g :: gs => (c :: g) :: gs

/-- Rust `enum TileKeyFromStrError { Missing(&'static str), Invalid(&'static str, ParseIntError) }`.
The inner `ParseIntError` payload is dropped: the claims depend only on
which field the error names. -/
inductive TileKeyFromStrError where
  | Missing (field : String)
  | Invalid (field : String)
deriving DecidableEq, Repr

/-- The field name an error carries. -/
def errorField : TileKeyFromStrError → String
  | .Missing f => f
  | .Invalid f => f

/-- One `iter.next().ok_or(Missing(name))?.parse().map_err(|_| Invalid(name))?`
step of Rust `FromStr for TileKey`, for a `u8` field: the `i`-th piece of the
split. -/
def fieldU8 (parts : List (List Char)) (i : Nat) (name : String) :
    Except TileKeyFromStrError Nat :=
  match parts.get? i with
  | none => .error (.Missing name)
  | some s =>
    match parseU8 s with
    | none => .error (.Invalid name)
    | some v => .ok v

/-- Same as `fieldU8` for an `i64` field. -/
def fieldI64 (parts : List (List Char)) (i : Nat) (name : String) :
    Except TileKeyFromStrError Int :=
  match parts.get? i with
  | none => .error (.Missing name)
  | some s =>
    match parseI64 s with
    | none => .error (.Invalid name)
    | some v => .ok v

/-- The six sequential `iter.next()`/`parse` steps of Rust
`FromStr for TileKey`, over the already-split pieces; each `match` is one
`?` early return. -/
def tileKeyFromParts (parts : List (List Char)) :
    Except TileKeyFromStrError TileKey :=
  match fieldU8 parts 0 "zoom" with
  | .error e => .error e
  | .ok zoom =>
    match fieldI64 parts 1 "x" with
    | .error e => .error e
    | .ok x =>
      match fieldI64 parts 2 "y" with
      | .error e => .error e
      | .ok y =>
        match fieldU8 parts 3 "min_level" with
        | .error e => .error e
        | .ok min_level =>
          match fieldU8 parts 4 "max_level" with
          | .error e => .error e
          | .ok max_level =>
            match fieldU8 parts 5 "health" with
            | .error e => .error e
            | .ok health =>
              .ok { zoom := zoom, x := x, y := y, min_level := min_level,
                    max_level := max_level, health := health }

/-- Rust `TileKey::from_str`: split on `_`, then parse the six fields in
order; extra trailing pieces are never examined. -/
def tileKeyFromStr (cs : List Char) : Except TileKeyFromStrError TileKey :=
  tileKeyFromParts (splitUnderscore cs)

/-- The six field names, in the order `from_str` consumes them. -/
def fieldNames : List String := ["zoom", "x", "y", "min_level", "max_level", "health"]

/-- Whether the `i`-th field of the split input is present and parses with
the parser `from_str` applies at that position. -/
def fieldOk (parts : List (List Char)) : Nat → Bool
  | 0 => ((parts.get? 0).bind parseU8).isSome
  | 1 => ((parts.get? 1).bind parseI64).isSome
  | 2 => ((parts.get? 2).bind parseI64).isSome
  | 3 => ((parts.get? 3).bind parseU8).isSome
  | 4 => ((parts.get? 4).bind parseU8).isSome
  | 5 => ((parts.get? 5).bind parseU8).isSome
  | _ => true

/-! ## src/lib.rs and src/get_entities_in_range.rs : the batch orchestrator

The tile set is `HashMap<key, TileState>` in the source (keyed by the textual
tile key in `lib.rs`, by `TileKey` in `get_entities_in_range.rs`); it is
modelled as an association list over an arbitrary key type `K` with decidable
equality, in hash-iteration order. `E` is the opaque entity payload type
(`entities::IntelEntities`). -/

/-- Rust `enum TileState { Free, Busy, Done(entities) }` (lib.rs). -/
inductive TileState (E : Type) where
  | Free : TileState E
  | Busy : TileState E
  | Done (entities : E) : TileState E
deriving DecidableEq, Repr

/-- Rust `TileState::is_free`. -/
def TileState.is_free {E : Type} : TileState E → Bool
  | .Free => true
  | _ => false

/-- Rust `TileState::is_busy`. -/
def TileState.is_busy {E : Type} : TileState E → Bool
  | .Busy => true
  | _ => false

/-- Rust `TileState::is_done`. -/
def TileState.is_done {E : Type} : TileState E → Bool
  | .Done _ => true
  | _ => false

/-- Rust `TileState::unwrap`: returns the `Done` payload; `none` models the
`unreachable!()` panic branch. -/
def TileState.unwrap {E : Type} : TileState E → Option E
  | .Done e => some e
  | _ => none

/-- The tile set: per-key tile state, in hash-iteration order. -/
abbrev TileMap (K E : Type) := List (K × TileState E)

/-- Rust `enum IntelResult { Error(IntelError), Entities(IntelEntities) }`
(entities.rs); the `IntelError` payload is irrelevant to the claims. -/
inductive IntelResult (E : Type) where
  | Error : IntelResult E
  | Entities (portals : E) : IntelResult E
deriving DecidableEq, Repr

variable {K E : Type} [DecidableEq K]

/-- The key list of a tile map. -/
def tileKeys (m : TileMap K E) : List K := m.map Prod.fst

/-- `HashMap` lookup. -/
def lookupTile (m : TileMap K E) (k : K) : Option (TileState E) :=
  match m with
  | [] => none
  | (k', v) :: rest => if k' = k then some v else lookupTile rest k

/-- Rust `HashMap::insert`: replaces the value of an existing key, otherwise
adds the entry. -/
def insertTile (m : TileMap K E) (k : K) (v : TileState E) : TileMap K E :=
  match m with
  | [] => [(k, v)]
  | (k', v') :: rest =>
    if k' = k then (k, v) :: rest else (k', v') :: insertTile rest k v

/-- The select phase of `get_tiles` (lib.rs 507-518):
`iter_mut().filter_map(|(id, status)| status.is_free().then(|| { *status = Busy; id.clone() })).take(n)`.
Walks the map in iteration order, marking `Free` tiles `Busy` and collecting
their keys, stopping once `n` have been taken (the lazy `take` stops pulling,
so later `Free` tiles are left untouched). -/
def selectBatch (m : TileMap K E) (n : Nat) : TileMap K E × List K :=
  match m with
  | [] => ([], [])
  | (k, v) :: rest =>
    if n = 0 then ((k, v) :: rest, [])
    else if v.is_free then
      let r := selectBatch rest (n - 1)
      ((k, TileState.Busy) :: r.1, k :: r.2)
    else
      let r := selectBatch rest n
      ((k, v) :: r.1, r.2)

/-- The transport-success resolve arm of `get_tiles` (lib.rs 528-536):
`for (id, res) in res.result.map { if let Entities(portals) = res { insert(id, Done(portals)) } else { insert(id, Free) } }`.
Keys sent in the batch but absent from `resp` are not touched. -/
def resolveSuccess (m : TileMap K E) (resp : List (K × IntelResult E)) : TileMap K E :=
  resp.foldl
    (fun acc p =>
      match p.2 with
      | .Entities portals => insertTile acc p.1 (.Done portals)
      | .Error => insertTile acc p.1 .Free)
    m

/-- The transport-failure resolve arm of `get_tiles` (lib.rs 537-542):
`for id in ids { insert(id, Free) }`. -/
def resolveFailure (m : TileMap K E) (ids : List K) : TileMap K E :=
  ids.foldl (fun acc id => insertTile acc id .Free) m

/-- Rust `get_counts` Free count: `iter().filter(|(_, s)| s.is_free()).count()`. -/
def countFree (m : TileMap K E) : Nat := (m.filter fun p => p.2.is_free).length

/-- Rust `get_counts` Busy count. -/
def countBusy (m : TileMap K E) : Nat := (m.filter fun p => p.2.is_busy).length

/-- Rust `get_counts` Done count. -/
def countDone (m : TileMap K E) : Nat := (m.filter fun p => p.2.is_done).length

/-- The final collection step of `get_entities_in_range` (lib.rs 562-563):
`tiles.into_values().map(TileState::unwrap).collect()`, with the
`unreachable!()` panic modelled by `unwrap` returning `none`. -/
def collectResults (m : TileMap K E) : List E :=
  m.filterMap fun p => p.2.unwrap

/-! ## Theorems about the tile coordinate system -/

/-- C6: for every u8 zoom value, the clamp to `[3, 15]` puts the index inside
the 16-entry `TILES_PER_EDGE` table, so the lookup in `get_tiles_per_edge`
(used by `TileKey.new` and `TileKey.range`) is always in bounds: the checked
lookup returns a value and the total lookup agrees with it. -/
theorem get_tiles_per_edge_in_bounds (zoom : Nat) (h : zoom ≤ 255) :
    clampZoom zoom < TILES_PER_EDGE.length ∧
      ∃ v, get_tiles_per_edge? zoom = some v ∧ get_tiles_per_edge zoom = v := by
  have hlen : TILES_PER_EDGE.length = 16 := by decide
  have hlt : clampZoom zoom < TILES_PER_EDGE.length := by
    have : clampZoom zoom ≤ 15 := min_le_right _ _
    omega
  refine ⟨hlt, TILES_PER_EDGE.get ⟨clampZoom zoom, hlt⟩, ?_, ?_⟩
  · exact List.get?_eq_get hlt
  · unfold get_tiles_per_edge get_tiles_per_edge?
    rw [List.get?_eq_get hlt]
    rfl

/-- C6 witness: instantiated at the extreme u8 zoom 255. -/
theorem get_tiles_per_edge_in_bounds_witness :
    clampZoom 255 < TILES_PER_EDGE.length ∧
      ∃ v, get_tiles_per_edge? 255 = some v ∧ get_tiles_per_edge 255 = v :=
  get_tiles_per_edge_in_bounds 255 (by decide)

/-- Helper: the inclusive integer range over a single point is a singleton. -/
theorem intRangeIncl_self (a : Int) : intRangeIncl a a = [a] := by
  unfold intRangeIncl
  have h1 : (a + 1 - a).toNat = 1 := by omega
  rw [h1]
  have h2 : List.range 1 = [0] := by decide
  rw [h2]
  simp

/-- C4: a degenerate rectangle (`from == to`) yields exactly one tile, equal
to `TileKey::new` at the same point with the same optional parameters;
`lat2tile` / `lng2tile` range over all possible projection functions. -/
theorem range_degenerate (lat2tile lng2tile : ℚ → ℚ → Int) (lat lng : ℚ)
    (zoom min_level max_level health : Option Nat) :
    TileKey.range lat2tile lng2tile (lat, lng) (lat, lng) zoom min_level max_level health
      = [TileKey.new lat2tile lng2tile lat lng zoom min_level max_level health] := by
  unfold TileKey.range TileKey.new
  simp only [min_self, max_self, intRangeIncl_self]
  rfl

/-- Helper: membership in the inclusive integer range. -/
theorem mem_intRangeIncl (a b x : Int) : x ∈ intRangeIncl a b ↔ a ≤ x ∧ x ≤ b := by
  unfold intRangeIncl
  rw [List.mem_map]
  constructor
  · rintro ⟨i, hi, hx⟩
    have hx' : a + (i : Int) = x := hx
    rw [List.mem_range] at hi
    omega
  · rintro ⟨h1, h2⟩
    exact ⟨(x - a).toNat, List.mem_range.mpr (by omega), by omega⟩

/-- Helper: the inclusive integer range has no duplicates. -/
theorem nodup_intRangeIncl (a b : Int) : (intRangeIncl a b).Nodup := by
  unfold intRangeIncl
  refine List.Nodup.map ?_ (List.nodup_range _)
  intro i j h
  have h' : a + (i : Int) = a + (j : Int) := h
  omega

/-- C5: `TileKey::range` produces exactly the Cartesian product of the
min/max-normalized projected corner coordinates — no duplicates, membership
is exactly the product box, and swapping the two corner arguments yields the
very same list. -/
theorem range_cartesian (lat2tile lng2tile : ℚ → ℚ → Int)
    (p q : ℚ × ℚ) (zoom min_level max_level health : Option Nat) :
    (TileKey.range lat2tile lng2tile p q zoom min_level max_level health).Nodup ∧
    (∀ k : TileKey,
      k ∈ TileKey.range lat2tile lng2tile p q zoom min_level max_level health ↔
        (k.zoom = zoom.getD DEFAULT_ZOOM ∧
         k.min_level = min_level.getD 0 ∧
         k.max_level = max_level.getD 8 ∧
         k.health = health.getD 100 ∧
         min (lng2tile p.2 ((get_tiles_per_edge (zoom.getD DEFAULT_ZOOM) : ℚ)))
             (lng2tile q.2 ((get_tiles_per_edge (zoom.getD DEFAULT_ZOOM) : ℚ))) ≤ k.x ∧
         k.x ≤ max (lng2tile p.2 ((get_tiles_per_edge (zoom.getD DEFAULT_ZOOM) : ℚ)))
             (lng2tile q.2 ((get_tiles_per_edge (zoom.getD DEFAULT_ZOOM) : ℚ))) ∧
         min (lat2tile p.1 ((get_tiles_per_edge (zoom.getD DEFAULT_ZOOM) : ℚ)))
             (lat2tile q.1 ((get_tiles_per_edge (zoom.getD DEFAULT_ZOOM) : ℚ))) ≤ k.y ∧
         k.y ≤ max (lat2tile p.1 ((get_tiles_per_edge (zoom.getD DEFAULT_ZOOM) : ℚ)))
             (lat2tile q.1 ((get_tiles_per_edge (zoom.getD DEFAULT_ZOOM) : ℚ))))) ∧
    TileKey.range lat2tile lng2tile p q zoom min_level max_level health =
      TileKey.range lat2tile lng2tile q p zoom min_level max_level health := by
  refine ⟨?_, ?_, ?_⟩
  · unfold TileKey.range
    rw [List.nodup_flatMap]
    constructor
    · intro x _
      refine List.Nodup.map ?_ (nodup_intRangeIncl _ _)
      intro y1 y2 h
      simpa using congrArg TileKey.y h
    · refine (nodup_intRangeIncl _ _).imp ?_
      intro x1 x2 hne k hk1 hk2
      rw [List.mem_map] at hk1 hk2
      obtain ⟨a, -, ha⟩ := hk1
      obtain ⟨b, -, hb⟩ := hk2
      have : x1 = x2 := by
        have h1 := congrArg TileKey.x ha
        have h2 := congrArg TileKey.x hb
        simp at h1 h2
        omega
      exact hne this
  · intro k
    unfold TileKey.range
    simp only [List.mem_flatMap, List.mem_map, mem_intRangeIncl]
    constructor
    · rintro ⟨x, hx, y, hy, rfl⟩
      exact ⟨rfl, rfl, rfl, rfl, hx.1, hx.2, hy.1, hy.2⟩
    · rintro ⟨hz, hml, hMl, hh, hx1, hx2, hy1, hy2⟩
      refine ⟨k.x, ⟨hx1, hx2⟩, k.y, ⟨hy1, hy2⟩, ?_⟩
      rcases k with ⟨kz, kx, ky, kml, kMl, kh⟩
      simp only at hz hml hMl hh
      rw [hz, hml, hMl, hh]
  · unfold TileKey.range
    simp only [min_comm, max_comm]

/-- C1: `TileKey::square` zips the x-range with the y-range, so for
`side = 2` at the origin key it produces the 2 diagonal tiles
`(0,0), (1,1)` — not the `2 × 2 = 4`-tile block `{0,1} × {0,1}` the claim
(and the spec's "side × side block") describes. -/
theorem square_is_diagonal_not_block :
    TileKey.square ⟨15, 0, 0, 0, 8, 100⟩ 2
      = [⟨15, 0, 0, 0, 8, 100⟩, ⟨15, 1, 1, 0, 8, 100⟩] := by
  rfl

/-! ## Theorems about the batch orchestrator -/

theorem lookupTile_insertTile_self (m : TileMap K E) (k : K) (v : TileState E) :
    lookupTile (insertTile m k v) k = some v := by
  induction m with
  | nil => simp [insertTile, lookupTile]
  | cons p rest ih =>
    obtain ⟨k', v'⟩ := p
    by_cases hk : k' = k
    · simp [insertTile, lookupTile, hk]
    · simp [insertTile, lookupTile, hk, ih]

theorem lookupTile_insertTile_ne (m : TileMap K E) (k k' : K) (v : TileState E)
    (h : k' ≠ k) : lookupTile (insertTile m k v) k' = lookupTile m k' := by
  have h' : ¬(k = k') := fun hh => h hh.symm
  induction m with
  | nil => simp [insertTile, lookupTile, h']
  | cons p rest ih =>
    obtain ⟨k0, v0⟩ := p
    by_cases hk : k0 = k
    · subst hk
      simp [insertTile, lookupTile, h']
    · simp [insertTile, lookupTile, hk, ih]

theorem tileKeys_insertTile_mem (m : TileMap K E) (k : K) (v : TileState E) :
    k ∈ tileKeys m → tileKeys (insertTile m k v) = tileKeys m := by
  induction m with
  | nil => intro h; simp [tileKeys] at h
  | cons p rest ih =>
    intro h
    obtain ⟨k0, v0⟩ := p
    by_cases hk : k0 = k
    · simp [insertTile, tileKeys, hk]
    · have hmem : k ∈ tileKeys rest := by
        simp [tileKeys] at h ⊢
        rcases h with h | h
        · exact absurd h.symm hk
        · exact h
      have := ih hmem
      simp [insertTile, tileKeys, hk] at this ⊢
      exact this

theorem lookupTile_resolveFailure_not_mem (ids : List K) (m : TileMap K E) (k : K) :
    k ∉ ids → lookupTile (resolveFailure m ids) k = lookupTile m k := by
  induction ids generalizing m with
  | nil => intro _; rfl
  | cons i rest ih =>
    intro h
    have hne : k ≠ i := fun hh => h (hh ▸ List.mem_cons_self i rest)
    have hrest : k ∉ rest := fun hh => h (List.mem_cons_of_mem i hh)
    show lookupTile (resolveFailure (insertTile m i .Free) rest) k = _
    rw [ih _ hrest, lookupTile_insertTile_ne _ _ _ _ hne]

theorem lookupTile_resolveFailure_mem (ids : List K) (m : TileMap K E) (k : K) :
    k ∈ ids → lookupTile (resolveFailure m ids) k = some .Free := by
  induction ids generalizing m with
  | nil => intro h; simp at h
  | cons i rest ih =>
    intro h
    by_cases hk : k ∈ rest
    · exact ih _ hk
    · have hki : k = i := by
        rcases List.mem_cons.mp h with h1 | h2
        · exact h1
        · exact absurd h2 hk
      subst hki
      show lookupTile (resolveFailure (insertTile m k .Free) rest) k = _
      rw [lookupTile_resolveFailure_not_mem _ _ _ hk, lookupTile_insertTile_self]

theorem lookupTile_resolveSuccess_not_mem (resp : List (K × IntelResult E))
    (m : TileMap K E) (k : K) :
    k ∉ resp.map Prod.fst → lookupTile (resolveSuccess m resp) k = lookupTile m k := by
  induction resp generalizing m with
  | nil => intro _; rfl
  | cons p rest ih =>
    intro h
    obtain ⟨i, r⟩ := p
    have hne : k ≠ i := by
      intro hh
      exact h (by simp [hh])
    have hrest : k ∉ rest.map Prod.fst := by
      intro hh
      refine h ?_
      rw [List.map_cons]
      exact List.mem_cons_of_mem _ hh
    cases r with
    | Entities e =>
      show lookupTile (resolveSuccess (insertTile m i (.Done e)) rest) k = _
      rw [ih _ hrest, lookupTile_insertTile_ne _ _ _ _ hne]
    | Error =>
      show lookupTile (resolveSuccess (insertTile m i .Free) rest) k = _
      rw [ih _ hrest, lookupTile_insertTile_ne _ _ _ _ hne]

theorem lookupTile_resolveSuccess_entities (resp : List (K × IntelResult E))
    (m : TileMap K E) (k : K) (e : E) :
    (resp.map Prod.fst).Nodup → (k, IntelResult.Entities e) ∈ resp →
      lookupTile (resolveSuccess m resp) k = some (.Done e) := by
  induction resp generalizing m with
  | nil => intro _ h; simp at h
  | cons p rest ih =>
    intro hnd h
    obtain ⟨i, r⟩ := p
    rw [List.map_cons, List.nodup_cons] at hnd
    rcases List.mem_cons.mp h with h1 | h2
    · cases h1
      have hnotin : k ∉ rest.map Prod.fst := hnd.1
      show lookupTile (resolveSuccess (insertTile m k (.Done e)) rest) k = _
      rw [lookupTile_resolveSuccess_not_mem _ _ _ hnotin, lookupTile_insertTile_self]
    · cases r with
      | Entities e' =>
        show lookupTile (resolveSuccess (insertTile m i (.Done e')) rest) k = _
        exact ih _ hnd.2 h2
      | Error =>
        show lookupTile (resolveSuccess (insertTile m i .Free) rest) k = _
        exact ih _ hnd.2 h2

theorem lookupTile_resolveSuccess_error (resp : List (K × IntelResult E))
    (m : TileMap K E) (k : K) :
    (resp.map Prod.fst).Nodup → (k, IntelResult.Error) ∈ resp →
      lookupTile (resolveSuccess m resp) k = some .Free := by
  induction resp generalizing m with
  | nil => intro _ h; simp at h
  | cons p rest ih =>
    intro hnd h
    obtain ⟨i, r⟩ := p
    rw [List.map_cons, List.nodup_cons] at hnd
    rcases List.mem_cons.mp h with h1 | h2
    · cases h1
      have hnotin : k ∉ rest.map Prod.fst := hnd.1
      show lookupTile (resolveSuccess (insertTile m k .Free) rest) k = _
      rw [lookupTile_resolveSuccess_not_mem _ _ _ hnotin, lookupTile_insertTile_self]
    · cases r with
      | Entities e' =>
        show lookupTile (resolveSuccess (insertTile m i (.Done e')) rest) k = _
        exact ih _ hnd.2 h2
      | Error =>
        show lookupTile (resolveSuccess (insertTile m i .Free) rest) k = _
        exact ih _ hnd.2 h2

theorem tileKeys_selectBatch (m : TileMap K E) (n : Nat) :
    tileKeys (selectBatch m n).1 = tileKeys m := by
  induction m generalizing n with
  | nil => rfl
  | cons p rest ih =>
    obtain ⟨k, v⟩ := p
    by_cases hn : n = 0
    · simp [selectBatch, hn]
    · by_cases hv : v.is_free
      · simp [selectBatch, hn, hv, tileKeys] at ih ⊢
        exact ih (n - 1)
      · simp [selectBatch, hn, hv, tileKeys] at ih ⊢
        exact ih n

theorem tileKeys_resolveFailure (ids : List K) (m : TileMap K E) :
    (∀ k ∈ ids, k ∈ tileKeys m) → tileKeys (resolveFailure m ids) = tileKeys m := by
  induction ids generalizing m with
  | nil => intro _; rfl
  | cons i rest ih =>
    intro h
    have hi : i ∈ tileKeys m := h i (List.mem_cons_self i rest)
    have hins := tileKeys_insertTile_mem m i (TileState.Free) hi
    show tileKeys (resolveFailure (insertTile m i .Free) rest) = _
    rw [ih _ (fun k hk => hins ▸ h k (List.mem_cons_of_mem i hk)), hins]

theorem tileKeys_resolveSuccess (resp : List (K × IntelResult E)) (m : TileMap K E) :
    (∀ p ∈ resp, p.1 ∈ tileKeys m) → tileKeys (resolveSuccess m resp) = tileKeys m := by
  induction resp generalizing m with
  | nil => intro _; rfl
  | cons p rest ih =>
    intro h
    obtain ⟨i, r⟩ := p
    have hi : i ∈ tileKeys m := h (i, r) (List.mem_cons_self _ rest)
    cases r with
    | Entities e =>
      have hins := tileKeys_insertTile_mem m i (TileState.Done e) hi
      show tileKeys (resolveSuccess (insertTile m i (.Done e)) rest) = _
      rw [ih _ (fun q hq => hins ▸ h q (List.mem_cons_of_mem _ hq)), hins]
    | Error =>
      have hins := tileKeys_insertTile_mem m i (TileState.Free) hi
      show tileKeys (resolveSuccess (insertTile m i .Free) rest) = _
      rw [ih _ (fun q hq => hins ▸ h q (List.mem_cons_of_mem _ hq)), hins]

theorem counts_sum (m : TileMap K E) :
    countFree m + countBusy m + countDone m = m.length := by
  induction m with
  | nil => rfl
  | cons p rest ih =>
    obtain ⟨k, v⟩ := p
    cases v with
    | Free =>
      simp [countFree, countBusy, countDone, List.filter_cons,
        TileState.is_free, TileState.is_busy, TileState.is_done] at ih ⊢
      omega
    | Busy =>
      simp [countFree, countBusy, countDone, List.filter_cons,
        TileState.is_free, TileState.is_busy, TileState.is_done] at ih ⊢
      omega
    | Done e =>
      simp [countFree, countBusy, countDone, List.filter_cons,
        TileState.is_free, TileState.is_busy, TileState.is_done] at ih ⊢
      omega

/-- C7: resolution of a dispatched batch. On transport failure every tile of
the batch that was `Busy` ends `Free`; on transport success a tile whose
per-key result is an entity payload ends `Done` with that payload, and a tile
whose per-key result is an endpoint-level error ends `Free` (response maps
have unique keys, hence the `Nodup` hypothesis). -/
theorem resolve_transitions (m : TileMap K E) (ids : List K)
    (resp : List (K × IntelResult E)) (hnd : (resp.map Prod.fst).Nodup) :
    (∀ k, k ∈ ids → lookupTile m k = some .Busy →
      lookupTile (resolveFailure m ids) k = some .Free) ∧
    (∀ k e, (k, IntelResult.Entities e) ∈ resp → lookupTile m k = some .Busy →
      lookupTile (resolveSuccess m resp) k = some (.Done e)) ∧
    (∀ k, (k, IntelResult.Error) ∈ resp → lookupTile m k = some .Busy →
      lookupTile (resolveSuccess m resp) k = some .Free) := by
  refine ⟨?_, ?_, ?_⟩
  · intro k hk _
    exact lookupTile_resolveFailure_mem ids m k hk
  · intro k e hk _
    exact lookupTile_resolveSuccess_entities resp m k e hnd hk
  · intro k hk _
    exact lookupTile_resolveSuccess_error resp m k hnd hk

theorem resolve_transitions_witness :
    lookupTile (resolveFailure
        [((0 : Nat), (TileState.Busy : TileState Nat)), (1, .Busy), (2, .Busy)] [0]) 0
      = some .Free ∧
    lookupTile (resolveSuccess
        [((0 : Nat), (TileState.Busy : TileState Nat)), (1, .Busy), (2, .Busy)]
        [(1, .Entities 7), (2, .Error)]) 1
      = some (.Done 7) ∧
    lookupTile (resolveSuccess
        [((0 : Nat), (TileState.Busy : TileState Nat)), (1, .Busy), (2, .Busy)]
        [(1, .Entities 7), (2, .Error)]) 2
      = some .Free := by
  obtain ⟨a, b, c⟩ := resolve_transitions
    [((0 : Nat), (TileState.Busy : TileState Nat)), (1, .Busy), (2, .Busy)]
    [0] [(1, .Entities 7), (2, .Error)] (by decide)
  exact ⟨a 0 (by decide) (by decide), b 1 7 (by decide) (by decide),
    c 2 (by decide) (by decide)⟩

/-- C2 counter-evidence: a tile dispatched in a batch whose transport-level
successful response omits its key is NOT returned to `Free` — the resolve
loop only touches keys present in the response map, so the tile stays
`Busy` forever. Evaluated at the one-tile map with an empty response. -/
theorem unanswered_tile_stays_busy :
    lookupTile (resolveSuccess [((0 : Nat), (TileState.Busy : TileState Nat))]
        ([] : List (Nat × IntelResult Nat))) 0 = some TileState.Busy ∧
    lookupTile (resolveSuccess [((0 : Nat), (TileState.Busy : TileState Nat))]
        ([] : List (Nat × IntelResult Nat))) 0 ≠ some TileState.Free := by
  exact ⟨rfl, by decide⟩

/-- C8: each orchestrator operation — select-and-mark-`Busy`,
resolve-on-success, resolve-on-failure — preserves the tile set's key list,
and the sum of the `Free`, `Busy` and `Done` counts of the resulting map
equals the initial cardinality, given that every response-map key and every
batch id is one of the map's keys. -/
theorem orchestrator_preserves_tile_set (m : TileMap K E) (n : Nat)
    (resp : List (K × IntelResult E)) (ids : List K)
    (hresp : ∀ p ∈ resp, p.1 ∈ tileKeys m) (hids : ∀ k ∈ ids, k ∈ tileKeys m) :
    tileKeys (selectBatch m n).1 = tileKeys m ∧
    tileKeys (resolveSuccess m resp) = tileKeys m ∧
    tileKeys (resolveFailure m ids) = tileKeys m ∧
    countFree (selectBatch m n).1 + countBusy (selectBatch m n).1
      + countDone (selectBatch m n).1 = m.length ∧
    countFree (resolveSuccess m resp) + countBusy (resolveSuccess m resp)
      + countDone (resolveSuccess m resp) = m.length ∧
    countFree (resolveFailure m ids) + countBusy (resolveFailure m ids)
      + countDone (resolveFailure m ids) = m.length := by
  have h1 := tileKeys_selectBatch m n
  have h2 := tileKeys_resolveSuccess resp m hresp
  have h3 := tileKeys_resolveFailure ids m hids
  have len_of_keys : ∀ m' m'' : TileMap K E, tileKeys m' = tileKeys m'' →
      m'.length = m''.length := by
    intro m' m'' h
    have := congrArg List.length h
    simpa [tileKeys] using this
  refine ⟨h1, h2, h3, ?_, ?_, ?_⟩
  · rw [counts_sum]; exact len_of_keys _ _ h1
  · rw [counts_sum]; exact len_of_keys _ _ h2
  · rw [counts_sum]; exact len_of_keys _ _ h3

theorem orchestrator_preserves_tile_set_witness :
    tileKeys (selectBatch [((0 : Nat), (TileState.Free : TileState Nat)), (1, .Busy)] 1).1
      = tileKeys [((0 : Nat), (TileState.Free : TileState Nat)), (1, .Busy)] ∧
    tileKeys (resolveSuccess [((0 : Nat), (TileState.Free : TileState Nat)), (1, .Busy)]
        [(0, .Entities 3)])
      = tileKeys [((0 : Nat), (TileState.Free : TileState Nat)), (1, .Busy)] ∧
    tileKeys (resolveFailure [((0 : Nat), (TileState.Free : TileState Nat)), (1, .Busy)] [1])
      = tileKeys [((0 : Nat), (TileState.Free : TileState Nat)), (1, .Busy)] ∧
    countFree (selectBatch [((0 : Nat), (TileState.Free : TileState Nat)), (1, .Busy)] 1).1
      + countBusy (selectBatch [((0 : Nat), (TileState.Free : TileState Nat)), (1, .Busy)] 1).1
      + countDone (selectBatch [((0 : Nat), (TileState.Free : TileState Nat)), (1, .Busy)] 1).1
      = ([((0 : Nat), (TileState.Free : TileState Nat)), (1, .Busy)]).length ∧
    countFree (resolveSuccess [((0 : Nat), (TileState.Free : TileState Nat)), (1, .Busy)]
        [(0, .Entities 3)])
      + countBusy (resolveSuccess [((0 : Nat), (TileState.Free : TileState Nat)), (1, .Busy)]
        [(0, .Entities 3)])
      + countDone (resolveSuccess [((0 : Nat), (TileState.Free : TileState Nat)), (1, .Busy)]
        [(0, .Entities 3)])
      = ([((0 : Nat), (TileState.Free : TileState Nat)), (1, .Busy)]).length ∧
    countFree (resolveFailure [((0 : Nat), (TileState.Free : TileState Nat)), (1, .Busy)] [1])
      + countBusy (resolveFailure [((0 : Nat), (TileState.Free : TileState Nat)), (1, .Busy)] [1])
      + countDone (resolveFailure [((0 : Nat), (TileState.Free : TileState Nat)), (1, .Busy)] [1])
      = ([((0 : Nat), (TileState.Free : TileState Nat)), (1, .Busy)]).length :=
  orchestrator_preserves_tile_set
    [((0 : Nat), (TileState.Free : TileState Nat)), (1, .Busy)] 1
    [(0, .Entities 3)] [1] (by decide) (by decide)

/-- C9: when the control loop's exit condition holds (`free + busy > 0` is
false, i.e. no tile is `Free` and no tile is `Busy`), every tile is `Done`,
`TileState::unwrap` never reaches its `unreachable!()` branch, and the final
collection yields exactly one entity payload per tile of the set. -/
theorem loop_exit_all_done (m : TileMap K E)
    (h : countFree m + countBusy m = 0) :
    (∀ p ∈ m, ∃ e, p.2 = TileState.Done e) ∧
    (∀ p ∈ m, (TileState.unwrap p.2).isSome = true) ∧
    (collectResults m).length = m.length := by
  have hdone : ∀ p ∈ m, ∃ e, p.2 = TileState.Done e := by
    intro p hp
    have hfree : ¬(p.2.is_free = true) := by
      intro hf
      have hmem : p ∈ m.filter fun q => q.2.is_free := List.mem_filter.mpr ⟨hp, hf⟩
      have : countFree m ≠ 0 := by
        intro h0
        rw [countFree, List.length_eq_zero] at h0
        rw [h0] at hmem
        simp at hmem
      omega
    have hbusy : ¬(p.2.is_busy = true) := by
      intro hb
      have hmem : p ∈ m.filter fun q => q.2.is_busy := List.mem_filter.mpr ⟨hp, hb⟩
      have : countBusy m ≠ 0 := by
        intro h0
        rw [countBusy, List.length_eq_zero] at h0
        rw [h0] at hmem
        simp at hmem
      omega
    cases hv : p.2 with
    | Free => rw [hv] at hfree; simp [TileState.is_free] at hfree
    | Busy => rw [hv] at hbusy; simp [TileState.is_busy] at hbusy
    | Done e => exact ⟨e, rfl⟩
  refine ⟨hdone, ?_, ?_⟩
  · intro p hp
    obtain ⟨e, he⟩ := hdone p hp
    rw [he]
    rfl
  · clear h
    induction m with
    | nil => rfl
    | cons p rest ih =>
      obtain ⟨e, he⟩ := hdone p (List.mem_cons_self _ _)
      have hrest : ∀ q ∈ rest, ∃ e, q.2 = TileState.Done e :=
        fun q hq => hdone q (List.mem_cons_of_mem _ hq)
      have := ih hrest
      simp [collectResults, List.filterMap_cons, he, TileState.unwrap] at this ⊢
      exact this

theorem loop_exit_all_done_witness :
    (∀ p ∈ [((0 : Nat), (TileState.Done 5 : TileState Nat)), (1, .Done 9)],
      ∃ e, p.2 = TileState.Done e) ∧
    (∀ p ∈ [((0 : Nat), (TileState.Done 5 : TileState Nat)), (1, .Done 9)],
      (TileState.unwrap p.2).isSome = true) ∧
    (collectResults [((0 : Nat), (TileState.Done 5 : TileState Nat)), (1, .Done 9)]).length
      = ([((0 : Nat), (TileState.Done 5 : TileState Nat)), (1, .Done 9)]).length :=
  loop_exit_all_done [((0 : Nat), (TileState.Done 5 : TileState Nat)), (1, .Done 9)]
    (by decide)

/-! ## Theorems about the textual encoding and decoding -/

theorem digitVal_digitChar : ∀ d, d < 10 → digitVal (digitChar d) = some d := by
  decide

theorem digitChar_ne : ∀ d, d < 10 →
    digitChar d ≠ '_' ∧ digitChar d ≠ '+' ∧ digitChar d ≠ '-' := by
  decide

theorem parseDigitsAux_append (l1 l2 : List Char) :
    ∀ acc, parseDigitsAux acc (l1 ++ l2)
      = (parseDigitsAux acc l1).bind fun a => parseDigitsAux a l2 := by
  induction l1 with
  | nil => intro acc; rfl
  | cons c cs ih =>
    intro acc
    cases hd : digitVal c with
    | none => simp [parseDigitsAux, hd]
    | some d => simp [parseDigitsAux, hd, ih]

theorem mem_toDigitsAux (fuel n : Nat) (c : Char) :
    c ∈ toDigitsAux fuel n → ∃ d, d < 10 ∧ c = digitChar d := by
  induction fuel generalizing n with
  | zero => intro h; simp [toDigitsAux] at h
  | succ f ih =>
    intro h
    unfold toDigitsAux at h
    by_cases hn : n < 10
    · rw [if_pos hn] at h
      simp at h
      exact ⟨n, hn, h⟩
    · rw [if_neg hn] at h
      rcases List.mem_append.mp h with h1 | h2
      · exact ih _ h1
      · simp at h2
        exact ⟨n % 10, Nat.mod_lt _ (by norm_num), h2⟩

theorem toDigitsAux_ne_nil (fuel n : Nat) (h : 0 < fuel) : toDigitsAux fuel n ≠ [] := by
  cases fuel with
  | zero => omega
  | succ f =>
    unfold toDigitsAux
    by_cases hn : n < 10
    · rw [if_pos hn]; simp
    · rw [if_neg hn]; simp

theorem parse_toDigitsAux (fuel : Nat) :
    ∀ n acc, 0 < fuel → n < 10 ^ fuel →
      ∃ p, 0 < p ∧ parseDigitsAux acc (toDigitsAux fuel n) = some (acc * 10 ^ p + n) := by
  induction fuel with
  | zero => intro n acc hf _; omega
  | succ f ih =>
    intro n acc _ h
    unfold toDigitsAux
    by_cases hn : n < 10
    · rw [if_pos hn]
      refine ⟨1, by norm_num, ?_⟩
      unfold parseDigitsAux
      rw [digitVal_digitChar n hn]
      show parseDigitsAux (acc * 10 + n) [] = _
      unfold parseDigitsAux
      norm_num
    · rw [if_neg hn]
      have hf : 0 < f := by
        rcases Nat.eq_zero_or_pos f with h0 | h0
        · subst h0; simp at h; omega
        · exact h0
      have hdiv : n / 10 < 10 ^ f := by
        have hps : (10 : Nat) ^ (f + 1) = 10 ^ f * 10 := pow_succ 10 f
        rw [Nat.div_lt_iff_lt_mul (by norm_num)]
        omega
      obtain ⟨p, hp, heq⟩ := ih (n / 10) acc hf hdiv
      refine ⟨p + 1, by omega, ?_⟩
      rw [parseDigitsAux_append, heq]
      show parseDigitsAux (acc * 10 ^ p + n / 10) [digitChar (n % 10)] = _
      unfold parseDigitsAux
      rw [digitVal_digitChar _ (Nat.mod_lt _ (by norm_num))]
      show parseDigitsAux ((acc * 10 ^ p + n / 10) * 10 + n % 10) [] = _
      unfold parseDigitsAux
      congr 1
      have hdm : n / 10 * 10 + n % 10 = n := by omega
      calc (acc * 10 ^ p + n / 10) * 10 + n % 10
          = acc * (10 ^ p * 10) + (n / 10 * 10 + n % 10) := by ring
        _ = acc * 10 ^ (p + 1) + n := by rw [hdm, pow_succ]

theorem natChars_ne_nil (n : Nat) : natChars n ≠ [] :=
  toDigitsAux_ne_nil (n + 1) n (by omega)

theorem parseNat?_natChars (n : Nat) : parseNat? (natChars n) = some n := by
  have hlt : n < 10 ^ (n + 1) := by
    calc n < 10 ^ n := Nat.lt_pow_self (by norm_num) n
      _ ≤ 10 ^ (n + 1) := Nat.pow_le_pow_right (by norm_num) (Nat.le_succ n)
  obtain ⟨p, hp, heq⟩ := parse_toDigitsAux (n + 1) n 0 (by omega) hlt
  show (if natChars n = [] then none else parseDigitsAux 0 (natChars n)) = some n
  rw [if_neg (natChars_ne_nil n)]
  show parseDigitsAux 0 (toDigitsAux (n + 1) n) = some n
  rw [heq]
  norm_num

theorem mem_natChars (n : Nat) (c : Char) :
    c ∈ natChars n → ∃ d, d < 10 ∧ c = digitChar d :=
  mem_toDigitsAux (n + 1) n c

theorem splitUnderscore_cons (c : Char) (rest : List Char) :
    splitUnderscore (c :: rest) =
      if c = '_' then [] :: splitUnderscore rest
      else
        match splitUnderscore rest with
        | [] => [[c]]
        | g :: gs => (c :: g) :: gs := by
  rfl

theorem splitUnderscore_append (a b : List Char) :
    (∀ c ∈ a, c ≠ '_') → splitUnderscore (a ++ '_' :: b) = a :: splitUnderscore b := by
  induction a with
  | nil =>
    intro _
    show splitUnderscore ('_' :: b) = [] :: splitUnderscore b
    rw [splitUnderscore_cons, if_pos rfl]
  | cons c a' ih =>
    intro h
    have hc : c ≠ '_' := h c (List.mem_cons_self _ _)
    have ha' : ∀ x ∈ a', x ≠ '_' := fun x hx => h x (List.mem_cons_of_mem _ hx)
    show splitUnderscore (c :: (a' ++ '_' :: b)) = _
    rw [splitUnderscore_cons, if_neg hc, ih ha']

theorem splitUnderscore_of_no_underscore (a : List Char) :
    (∀ c ∈ a, c ≠ '_') → splitUnderscore a = [a] := by
  induction a with
  | nil => intro _; rfl
  | cons c a' ih =>
    intro h
    have hc : c ≠ '_' := h c (List.mem_cons_self _ _)
    have ha' : ∀ x ∈ a', x ≠ '_' := fun x hx => h x (List.mem_cons_of_mem _ hx)
    rw [splitUnderscore_cons, if_neg hc, ih ha']

theorem splitUnderscore_ne_nil (cs : List Char) : splitUnderscore cs ≠ [] := by
  cases cs with
  | nil => simp [splitUnderscore]
  | cons c rest =>
    unfold splitUnderscore
    by_cases hc : c = '_'
    · rw [if_pos hc]; simp
    · rw [if_neg hc]
      cases h : splitUnderscore rest with
      | nil => simp
      | cons g gs => simp

theorem natChars_no_underscore (n : Nat) : ∀ c ∈ natChars n, c ≠ '_' := by
  intro c hc
  obtain ⟨d, hd, rfl⟩ := mem_natChars n c hc
  exact (digitChar_ne d hd).1

theorem intChars_no_underscore (x : Int) : ∀ c ∈ intChars x, c ≠ '_' := by
  intro c hc
  unfold intChars at hc
  by_cases hx : x < 0
  · rw [if_pos hx] at hc
    rcases List.mem_cons.mp hc with h1 | h2
    · subst h1; decide
    · exact natChars_no_underscore _ c h2
  · rw [if_neg hx] at hc
    exact natChars_no_underscore _ c hc

theorem parseU8_natChars (n : Nat) (hn : n ≤ 255) : parseU8 (natChars n) = some n := by
  cases h : natChars n with
  | nil => exact absurd h (natChars_ne_nil n)
  | cons c cs =>
    have hc : c ∈ natChars n := by rw [h]; exact List.mem_cons_self _ _
    obtain ⟨d, hd, rfl⟩ := mem_natChars n c hc
    have hplus : digitChar d ≠ '+' := (digitChar_ne d hd).2.1
    show (parseNat? (if digitChar d = '+' then cs else digitChar d :: cs)).bind
        (fun v => if v ≤ 255 then some v else none) = some n
    rw [if_neg hplus, ← h, parseNat?_natChars]
    simp [hn]

theorem parseI64_intChars (x : Int) (h1 : -(2 ^ 63) ≤ x) (h2 : x ≤ 2 ^ 63 - 1) :
    parseI64 (intChars x) = some x := by
  by_cases hx : x < 0
  · have hix : intChars x = '-' :: natChars x.natAbs := by
      unfold intChars; rw [if_pos hx]
    rw [hix]
    show (if ('-' : Char) = '-' then
        (parseNat? (natChars x.natAbs)).bind fun v =>
          if (v : Int) ≤ 2 ^ 63 then some (-(v : Int)) else none
      else
        (parseNat? (if ('-' : Char) = '+' then natChars x.natAbs
            else '-' :: natChars x.natAbs)).bind fun v =>
          if (v : Int) ≤ 2 ^ 63 - 1 then some ((v : Int)) else none) = some x
    rw [if_pos rfl, parseNat?_natChars]
    have hle : ((x.natAbs : Int)) ≤ 2 ^ 63 := by omega
    show (if ((x.natAbs : Int)) ≤ 2 ^ 63 then some (-(x.natAbs : Int)) else none) = some x
    rw [if_pos hle]
    congr 1
    omega
  · have hix : intChars x = natChars x.toNat := by
      unfold intChars; rw [if_neg hx]
    rw [hix]
    cases h : natChars x.toNat with
    | nil => exact absurd h (natChars_ne_nil _)
    | cons c cs =>
      have hc : c ∈ natChars x.toNat := by rw [h]; exact List.mem_cons_self _ _
      obtain ⟨d, hd, rfl⟩ := mem_natChars _ c hc
      have hminus : digitChar d ≠ '-' := (digitChar_ne d hd).2.2
      have hplus : digitChar d ≠ '+' := (digitChar_ne d hd).2.1
      show (if digitChar d = '-' then
          (parseNat? cs).bind fun v =>
            if (v : Int) ≤ 2 ^ 63 then some (-(v : Int)) else none
        else
          (parseNat? (if digitChar d = '+' then cs else digitChar d :: cs)).bind fun v =>
            if (v : Int) ≤ 2 ^ 63 - 1 then some ((v : Int)) else none) = some x
      rw [if_neg hminus, if_neg hplus, ← h, parseNat?_natChars]
      have hle : ((x.toNat : Int)) ≤ 2 ^ 63 - 1 := by omega
      show (if ((x.toNat : Int)) ≤ 2 ^ 63 - 1 then some ((x.toNat : Int)) else none) = some x
      rw [if_pos hle]
      congr 1
      omega

theorem splitUnderscore_tileKeyToString (k : TileKey) :
    splitUnderscore (tileKeyToString k)
      = [natChars k.zoom, intChars k.x, intChars k.y,
         natChars k.min_level, natChars k.max_level, natChars k.health] := by
  unfold tileKeyToString
  rw [splitUnderscore_append _ _ (natChars_no_underscore _),
    splitUnderscore_append _ _ (intChars_no_underscore _),
    splitUnderscore_append _ _ (intChars_no_underscore _),
    splitUnderscore_append _ _ (natChars_no_underscore _),
    splitUnderscore_append _ _ (natChars_no_underscore _),
    splitUnderscore_of_no_underscore _ (natChars_no_underscore _)]

theorem splitUnderscore_tileKeyToString_append (k : TileKey) (extra : List Char) :
    splitUnderscore (tileKeyToString k ++ '_' :: extra)
      = natChars k.zoom :: intChars k.x :: intChars k.y :: natChars k.min_level ::
          natChars k.max_level :: natChars k.health :: splitUnderscore extra := by
  unfold tileKeyToString
  simp only [List.append_assoc, List.cons_append]
  rw [splitUnderscore_append _ _ (natChars_no_underscore _),
    splitUnderscore_append _ _ (intChars_no_underscore _),
    splitUnderscore_append _ _ (intChars_no_underscore _),
    splitUnderscore_append _ _ (natChars_no_underscore _),
    splitUnderscore_append _ _ (natChars_no_underscore _),
    splitUnderscore_append _ _ (natChars_no_underscore _)]

theorem tileKeyFromParts_ok (f0 f1 f2 f3 f4 f5 : List Char) (rest : List (List Char))
    (z ml Ml hl : Nat) (x y : Int)
    (h0 : parseU8 f0 = some z) (hx : parseI64 f1 = some x) (hy : parseI64 f2 = some y)
    (h3 : parseU8 f3 = some ml) (h4 : parseU8 f4 = some Ml) (h5 : parseU8 f5 = some hl) :
    tileKeyFromParts (f0 :: f1 :: f2 :: f3 :: f4 :: f5 :: rest)
      = .ok ⟨z, x, y, ml, Ml, hl⟩ := by
  have e0 : (f0 :: f1 :: f2 :: f3 :: f4 :: f5 :: rest).get? 0 = some f0 := rfl
  have e1 : (f0 :: f1 :: f2 :: f3 :: f4 :: f5 :: rest).get? 1 = some f1 := rfl
  have e2 : (f0 :: f1 :: f2 :: f3 :: f4 :: f5 :: rest).get? 2 = some f2 := rfl
  have e3 : (f0 :: f1 :: f2 :: f3 :: f4 :: f5 :: rest).get? 3 = some f3 := rfl
  have e4 : (f0 :: f1 :: f2 :: f3 :: f4 :: f5 :: rest).get? 4 = some f4 := rfl
  have e5 : (f0 :: f1 :: f2 :: f3 :: f4 :: f5 :: rest).get? 5 = some f5 := rfl
  unfold tileKeyFromParts fieldU8 fieldI64
  rw [e0, e1, e2, e3, e4, e5]
  simp only [h0, hx, hy, h3, h4, h5]

/-- C3: for every valid `TileKey` (u8 fields in `[0, 255]`, i64 coordinates
in `[-2^63, 2^63-1]`), decoding the textual encoding returns the key exactly:
`TileKey::from_str(k.to_string()) == Ok(k)`. -/
theorem tileKey_roundtrip (k : TileKey)
    (hz : k.zoom ≤ 255) (hml : k.min_level ≤ 255) (hMl : k.max_level ≤ 255)
    (hh : k.health ≤ 255)
    (hx1 : -(2 ^ 63) ≤ k.x) (hx2 : k.x ≤ 2 ^ 63 - 1)
    (hy1 : -(2 ^ 63) ≤ k.y) (hy2 : k.y ≤ 2 ^ 63 - 1) :
    tileKeyFromStr (tileKeyToString k) = .ok k := by
  unfold tileKeyFromStr
  rw [splitUnderscore_tileKeyToString,
    tileKeyFromParts_ok _ _ _ _ _ _ _ _ _ _ _ _ _
      (parseU8_natChars _ hz) (parseI64_intChars _ hx1 hx2) (parseI64_intChars _ hy1 hy2)
      (parseU8_natChars _ hml) (parseU8_natChars _ hMl) (parseU8_natChars _ hh)]

theorem tileKey_roundtrip_witness :
    tileKeyFromStr (tileKeyToString ⟨15, -5, 7, 0, 8, 100⟩) = .ok ⟨15, -5, 7, 0, 8, 100⟩ :=
  tileKey_roundtrip ⟨15, -5, 7, 0, 8, 100⟩ (by norm_num) (by norm_num) (by norm_num)
    (by norm_num) (by norm_num) (by norm_num) (by norm_num) (by norm_num)

theorem fieldU8_error (parts : List (List Char)) (i : Nat) (name : String)
    (e0 : TileKeyFromStrError) (he : fieldU8 parts i name = .error e0) :
    (parts.get? i = none ∧ e0 = .Missing name) ∨
      (∃ s, parts.get? i = some s ∧ parseU8 s = none ∧ e0 = .Invalid name) := by
  unfold fieldU8 at he
  cases hg : parts.get? i with
  | none =>
    left
    simp only [hg, Except.error.injEq] at he
    exact ⟨rfl, he.symm⟩
  | some s =>
    cases hp : parseU8 s with
    | none =>
      right
      simp only [hg, hp, Except.error.injEq] at he
      exact ⟨s, rfl, hp, he.symm⟩
    | some v =>
      simp only [hg, hp] at he
      exact Except.noConfusion he

theorem fieldU8_ok (parts : List (List Char)) (i : Nat) (name : String) (v : Nat)
    (ho : fieldU8 parts i name = .ok v) :
    ∃ s, parts.get? i = some s ∧ parseU8 s = some v := by
  unfold fieldU8 at ho
  cases hg : parts.get? i with
  | none =>
    simp only [hg] at ho
    exact Except.noConfusion ho
  | some s =>
    cases hp : parseU8 s with
    | none =>
      simp only [hg, hp] at ho
      exact Except.noConfusion ho
    | some w =>
      simp only [hg, hp, Except.ok.injEq] at ho
      exact ⟨s, rfl, by rw [← ho]; exact hp⟩

theorem fieldI64_error (parts : List (List Char)) (i : Nat) (name : String)
    (e0 : TileKeyFromStrError) (he : fieldI64 parts i name = .error e0) :
    (parts.get? i = none ∧ e0 = .Missing name) ∨
      (∃ s, parts.get? i = some s ∧ parseI64 s = none ∧ e0 = .Invalid name) := by
  unfold fieldI64 at he
  cases hg : parts.get? i with
  | none =>
    left
    simp only [hg, Except.error.injEq] at he
    exact ⟨rfl, he.symm⟩
  | some s =>
    cases hp : parseI64 s with
    | none =>
      right
      simp only [hg, hp, Except.error.injEq] at he
      exact ⟨s, rfl, hp, he.symm⟩
    | some v =>
      simp only [hg, hp] at he
      exact Except.noConfusion he

theorem fieldI64_ok (parts : List (List Char)) (i : Nat) (name : String) (v : Int)
    (ho : fieldI64 parts i name = .ok v) :
    ∃ s, parts.get? i = some s ∧ parseI64 s = some v := by
  unfold fieldI64 at ho
  cases hg : parts.get? i with
  | none =>
    simp only [hg] at ho
    exact Except.noConfusion ho
  | some s =>
    cases hp : parseI64 s with
    | none =>
      simp only [hg, hp] at ho
      exact Except.noConfusion ho
    | some w =>
      simp only [hg, hp, Except.ok.injEq] at ho
      exact ⟨s, rfl, by rw [← ho]; exact hp⟩

theorem buildErr (parts : List (List Char)) (i : Nat) (name : String)
    (e : TileKeyFromStrError)
    (hi : i < 6) (hname : fieldNames.get? i = some name)
    (hprev : ∀ j, j < i → fieldOk parts j = true)
    (hfok : fieldOk parts i = false)
    (hchar : (parts.get? i = none ∧ e = .Missing name) ∨
             (∃ s, parts.get? i = some s ∧ e = .Invalid name)) :
    ∃ i, i < 6 ∧ (∀ j, j < i → fieldOk parts j = true) ∧ fieldOk parts i = false ∧
      fieldNames.get? i = some (errorField e) ∧
      (parts.get? i = none → e = .Missing (errorField e)) ∧
      (parts.get? i ≠ none → e = .Invalid (errorField e)) := by
  refine ⟨i, hi, hprev, hfok, ?_, ?_, ?_⟩
  · rcases hchar with ⟨_, rfl⟩ | ⟨s, _, rfl⟩ <;> exact hname
  · intro h0
    rcases hchar with ⟨_, rfl⟩ | ⟨s, hs, rfl⟩
    · rfl
    · rw [hs] at h0
      exact absurd h0 (by simp)
  · intro hne
    rcases hchar with ⟨hn, rfl⟩ | ⟨s, hs, rfl⟩
    · exact absurd hn hne
    · rfl

theorem tileKeyFromParts_error (parts : List (List Char)) (e : TileKeyFromStrError)
    (he : tileKeyFromParts parts = .error e) :
    ∃ i, i < 6 ∧ (∀ j, j < i → fieldOk parts j = true) ∧ fieldOk parts i = false ∧
      fieldNames.get? i = some (errorField e) ∧
      (parts.get? i = none → e = .Missing (errorField e)) ∧
      (parts.get? i ≠ none → e = .Invalid (errorField e)) := by
  unfold tileKeyFromParts at he
  cases hf0 : fieldU8 parts 0 "zoom" with
  | error e0 =>
    simp only [hf0, Except.error.injEq] at he
    subst he
    rcases fieldU8_error _ _ _ _ hf0 with ⟨hn, rfl⟩ | ⟨s, hs, hp, rfl⟩
    · refine buildErr parts 0 "zoom" _ (by norm_num) rfl ?_ ?_ (Or.inl ⟨hn, rfl⟩)
      · intro j hj; omega
      · rw [show fieldOk parts 0 = ((parts.get? 0).bind parseU8).isSome from rfl, hn]
        rfl
    · refine buildErr parts 0 "zoom" _ (by norm_num) rfl ?_ ?_ (Or.inr ⟨s, hs, rfl⟩)
      · intro j hj; omega
      · rw [show fieldOk parts 0 = ((parts.get? 0).bind parseU8).isSome from rfl, hs]
        show (parseU8 s).isSome = false
        rw [hp]
        rfl
  | ok z =>
    have fok0 : fieldOk parts 0 = true := by
      obtain ⟨s, hs, hp⟩ := fieldU8_ok _ _ _ _ hf0
      rw [show fieldOk parts 0 = ((parts.get? 0).bind parseU8).isSome from rfl, hs]
      show (parseU8 s).isSome = true
      rw [hp]
      rfl
    simp only [hf0] at he
    cases hf1 : fieldI64 parts 1 "x" with
    | error e0 =>
      simp only [hf1, Except.error.injEq] at he
      subst he
      rcases fieldI64_error _ _ _ _ hf1 with ⟨hn, rfl⟩ | ⟨s, hs, hp, rfl⟩
      · refine buildErr parts 1 "x" _ (by norm_num) rfl ?_ ?_ (Or.inl ⟨hn, rfl⟩)
        · intro j hj
          interval_cases j
          exact fok0
        · rw [show fieldOk parts 1 = ((parts.get? 1).bind parseI64).isSome from rfl, hn]
          rfl
      · refine buildErr parts 1 "x" _ (by norm_num) rfl ?_ ?_ (Or.inr ⟨s, hs, rfl⟩)
        · intro j hj
          interval_cases j
          exact fok0
        · rw [show fieldOk parts 1 = ((parts.get? 1).bind parseI64).isSome from rfl, hs]
          show (parseI64 s).isSome = false
          rw [hp]
          rfl
    | ok x =>
      have fok1 : fieldOk parts 1 = true := by
        obtain ⟨s, hs, hp⟩ := fieldI64_ok _ _ _ _ hf1
        rw [show fieldOk parts 1 = ((parts.get? 1).bind parseI64).isSome from rfl, hs]
        show (parseI64 s).isSome = true
        rw [hp]
        rfl
      simp only [hf1] at he
      cases hf2 : fieldI64 parts 2 "y" with
      | error e0 =>
        simp only [hf2, Except.error.injEq] at he
        subst he
        rcases fieldI64_error _ _ _ _ hf2 with ⟨hn, rfl⟩ | ⟨s, hs, hp, rfl⟩
        · refine buildErr parts 2 "y" _ (by norm_num) rfl ?_ ?_ (Or.inl ⟨hn, rfl⟩)
          · intro j hj
            interval_cases j
            · exact fok0
            · exact fok1
          · rw [show fieldOk parts 2 = ((parts.get? 2).bind parseI64).isSome from rfl, hn]
            rfl
        · refine buildErr parts 2 "y" _ (by norm_num) rfl ?_ ?_ (Or.inr ⟨s, hs, rfl⟩)
          · intro j hj
            interval_cases j
            · exact fok0
            · exact fok1
          · rw [show fieldOk parts 2 = ((parts.get? 2).bind parseI64).isSome from rfl, hs]
            show (parseI64 s).isSome = false
            rw [hp]
            rfl
      | ok y =>
        have fok2 : fieldOk parts 2 = true := by
          obtain ⟨s, hs, hp⟩ := fieldI64_ok _ _ _ _ hf2
          rw [show fieldOk parts 2 = ((parts.get? 2).bind parseI64).isSome from rfl, hs]
          show (parseI64 s).isSome = true
          rw [hp]
          rfl
        simp only [hf2] at he
        cases hf3 : fieldU8 parts 3 "min_level" with
        | error e0 =>
          simp only [hf3, Except.error.injEq] at he
          subst he
          rcases fieldU8_error _ _ _ _ hf3 with ⟨hn, rfl⟩ | ⟨s, hs, hp, rfl⟩
          · refine buildErr parts 3 "min_level" _ (by norm_num) rfl ?_ ?_ (Or.inl ⟨hn, rfl⟩)
            · intro j hj
              interval_cases j
              · exact fok0
              · exact fok1
              · exact fok2
            · rw [show fieldOk parts 3 = ((parts.get? 3).bind parseU8).isSome from rfl, hn]
              rfl
          · refine buildErr parts 3 "min_level" _ (by norm_num) rfl ?_ ?_ (Or.inr ⟨s, hs, rfl⟩)
            · intro j hj
              interval_cases j
              · exact fok0
              · exact fok1
              · exact fok2
            · rw [show fieldOk parts 3 = ((parts.get? 3).bind parseU8).isSome from rfl, hs]
              show (parseU8 s).isSome = false
              rw [hp]
              rfl
        | ok ml =>
          have fok3 : fieldOk parts 3 = true := by
            obtain ⟨s, hs, hp⟩ := fieldU8_ok _ _ _ _ hf3
            rw [show fieldOk parts 3 = ((parts.get? 3).bind parseU8).isSome from rfl, hs]
            show (parseU8 s).isSome = true
            rw [hp]
            rfl
          simp only [hf3] at he
          cases hf4 : fieldU8 parts 4 "max_level" with
          | error e0 =>
            simp only [hf4, Except.error.injEq] at he
            subst he
            rcases fieldU8_error _ _ _ _ hf4 with ⟨hn, rfl⟩ | ⟨s, hs, hp, rfl⟩
            · refine buildErr parts 4 "max_level" _ (by norm_num) rfl ?_ ?_ (Or.inl ⟨hn, rfl⟩)
              · intro j hj
                interval_cases j
                · exact fok0
                · exact fok1
                · exact fok2
                · exact fok3
              · rw [show fieldOk parts 4 = ((parts.get? 4).bind parseU8).isSome from rfl, hn]
                rfl
            · refine buildErr parts 4 "max_level" _ (by norm_num) rfl ?_ ?_ (Or.inr ⟨s, hs, rfl⟩)
              · intro j hj
                interval_cases j
                · exact fok0
                · exact fok1
                · exact fok2
                · exact fok3
              · rw [show fieldOk parts 4 = ((parts.get? 4).bind parseU8).isSome from rfl, hs]
                show (parseU8 s).isSome = false
                rw [hp]
                rfl
          | ok Ml =>
            have fok4 : fieldOk parts 4 = true := by
              obtain ⟨s, hs, hp⟩ := fieldU8_ok _ _ _ _ hf4
              rw [show fieldOk parts 4 = ((parts.get? 4).bind parseU8).isSome from rfl, hs]
              show (parseU8 s).isSome = true
              rw [hp]
              rfl
            simp only [hf4] at he
            cases hf5 : fieldU8 parts 5 "health" with
            | error e0 =>
              simp only [hf5, Except.error.injEq] at he
              subst he
              rcases fieldU8_error _ _ _ _ hf5 with ⟨hn, rfl⟩ | ⟨s, hs, hp, rfl⟩
              · refine buildErr parts 5 "health" _ (by norm_num) rfl ?_ ?_ (Or.inl ⟨hn, rfl⟩)
                · intro j hj
                  interval_cases j
                  · exact fok0
                  · exact fok1
                  · exact fok2
                  · exact fok3
                  · exact fok4
                · rw [show fieldOk parts 5 = ((parts.get? 5).bind parseU8).isSome from rfl, hn]
                  rfl
              · refine buildErr parts 5 "health" _ (by norm_num) rfl ?_ ?_ (Or.inr ⟨s, hs, rfl⟩)
                · intro j hj
                  interval_cases j
                  · exact fok0
                  · exact fok1
                  · exact fok2
                  · exact fok3
                  · exact fok4
                · rw [show fieldOk parts 5 = ((parts.get? 5).bind parseU8).isSome from rfl, hs]
                  show (parseU8 s).isSome = false
                  rw [hp]
                  rfl
            | ok hl =>
              simp only [hf5] at he
              exact Except.noConfusion he

/-- C10: `TileKey::from_str` succeeds whenever the first six
underscore-separated fields parse, silently ignoring any trailing extra
fields (so decoding is not injective: the extended string differs from the
canonical one yet decodes to the same key); and when it fails, the error
names exactly the first field that is missing (`Missing`) or fails numeric
parsing (`Invalid`), all earlier fields having parsed. -/
theorem fromStr_trailing_fields_and_first_error (k : TileKey)
    (hz : k.zoom ≤ 255) (hml : k.min_level ≤ 255) (hMl : k.max_level ≤ 255)
    (hh : k.health ≤ 255)
    (hx1 : -(2 ^ 63) ≤ k.x) (hx2 : k.x ≤ 2 ^ 63 - 1)
    (hy1 : -(2 ^ 63) ≤ k.y) (hy2 : k.y ≤ 2 ^ 63 - 1)
    (extra : List Char) (cs : List Char) (e : TileKeyFromStrError)
    (he : tileKeyFromStr cs = .error e) :
    tileKeyFromStr (tileKeyToString k ++ '_' :: extra) = .ok k ∧
    tileKeyToString k ++ '_' :: extra ≠ tileKeyToString k ∧
    (∃ i, i < 6 ∧ (∀ j, j < i → fieldOk (splitUnderscore cs) j = true) ∧
      fieldOk (splitUnderscore cs) i = false ∧
      fieldNames.get? i = some (errorField e) ∧
      ((splitUnderscore cs).get? i = none → e = .Missing (errorField e)) ∧
      ((splitUnderscore cs).get? i ≠ none → e = .Invalid (errorField e))) := by
  refine ⟨?_, ?_, tileKeyFromParts_error _ _ he⟩
  · unfold tileKeyFromStr
    rw [splitUnderscore_tileKeyToString_append,
      tileKeyFromParts_ok _ _ _ _ _ _ _ _ _ _ _ _ _
        (parseU8_natChars _ hz) (parseI64_intChars _ hx1 hx2) (parseI64_intChars _ hy1 hy2)
        (parseU8_natChars _ hml) (parseU8_natChars _ hMl) (parseU8_natChars _ hh)]
  · intro heq
    have hlen := congrArg List.length heq
    simp only [List.length_append, List.length_cons] at hlen
    omega

theorem fromStr_trailing_fields_and_first_error_witness :
    tileKeyFromStr (tileKeyToString ⟨15, -5, 7, 0, 8, 100⟩ ++ '_' :: ['j', 'u', 'n', 'k'])
      = .ok ⟨15, -5, 7, 0, 8, 100⟩ ∧
    tileKeyToString ⟨15, -5, 7, 0, 8, 100⟩ ++ '_' :: ['j', 'u', 'n', 'k']
      ≠ tileKeyToString ⟨15, -5, 7, 0, 8, 100⟩ ∧
    (∃ i, i < 6 ∧
      (∀ j, j < i → fieldOk (splitUnderscore ['1', '5', '_', 'a']) j = true) ∧
      fieldOk (splitUnderscore ['1', '5', '_', 'a']) i = false ∧
      fieldNames.get? i = some (errorField (.Invalid "x")) ∧
      ((splitUnderscore ['1', '5', '_', 'a']).get? i = none →
        TileKeyFromStrError.Invalid "x" = .Missing (errorField (.Invalid "x"))) ∧
      ((splitUnderscore ['1', '5', '_', 'a']).get? i ≠ none →
        TileKeyFromStrError.Invalid "x" = .Invalid (errorField (.Invalid "x")))) :=
  fromStr_trailing_fields_and_first_error ⟨15, -5, 7, 0, 8, 100⟩
    (by norm_num) (by norm_num) (by norm_num) (by norm_num)
    (by norm_num) (by norm_num) (by norm_num) (by norm_num)
    ['j', 'u', 'n', 'k'] ['1', '5', '_', 'a'] (.Invalid "x") rfl

end IngressIntel
